import Mathlib

/-!
# Verification of `blaster.py` (nelas/blaster)

A shallow embedding of the BLASTing batch script `blaster.py`.  File
contents and paths are modelled as Lean `String`s, the filesystem as an
explicit record of directories and files, and the external BLAST tool and
the XML result parsing (which live in the missing `liblast` module) as
parameters of the model.  Python string operations used by the script
(`str.split`, `str.endswith`, `os.path` manipulation) are embedded as
structural recursions over `List Char`.
-/

set_option autoImplicit false

namespace Blaster

/-! ## Character-list string operations -/

/-- `str.split(sep)` on character lists: split at every occurrence of the
separator, keeping empty pieces, like Python's `split` with an explicit
separator. -/
def splitSep (sep : Char) : List Char → List (List Char)
  | [] => [[]]
  | c :: cs =>
    match splitSep sep cs with
    | [] => [[]]
    | r :: rs => if c = sep then [] :: r :: rs else (c :: r) :: rs

/-- Joining with a separator, inverse of `splitSep` on separator-free
pieces. -/
def joinSep (sep : Char) : List (List Char) → List Char
  | [] => []
  | [x] => x
  | x :: y :: xs => x ++ sep :: joinSep sep (y :: xs)

/-- Strip a leading run of characters: `dropPre? pre s = some r` iff
`s = pre ++ r`. -/
def dropPre? : List Char → List Char → Option (List Char)
  | [], s => some s
  | _ :: _, [] => none
  | p :: ps, c :: cs => if p = c then dropPre? ps cs else none

/-- Python's `s.endswith(post)`, via reversed prefix matching. -/
def endswith (s post : String) : Bool :=
  (dropPre? post.data.reverse s.data.reverse).isSome

/-- `filepath.split('.')[0]`: everything before the first dot (the whole
string when there is no dot), exactly as in `prepare` of `blaster.py`. -/
def stemDot (p : String) : String :=
  ⟨(splitSep '.' p.data).headD []⟩

/-- Modelled from the spec: `liblast.Sequence` is not in the sources; §4.4
says the constructor derives `gene_name` as the filename without its
extension, so we strip the part after the last dot. -/
def geneNameOf (f : String) : String :=
  let parts := splitSep '.' f.data
  if parts.length ≤ 1 then f else ⟨joinSep '.' parts.dropLast⟩

/-- `os.path.dirname`-like parent of a path (empty for a bare name). -/
def parentDir (p : String) : String :=
  ⟨joinSep '/' ((splitSep '/' p.data).dropLast)⟩

/-! ## Association lists (files of the filesystem, the `genes` dict) -/

/-- Lookup in an association list (first match). -/
def getA {β : Type} : List (String × β) → String → Option β
  | [], _ => none
  | (q, d) :: rest, p => if q = p then some d else getA rest p

/-- Insert-or-update in an association list: Python dict assignment
`m[k] = v` (existing key keeps its position, value replaced; fresh key
appended). -/
def setA {β : Type} : List (String × β) → String → β → List (String × β)
  | [], p, c => [(p, c)]
  | (q, d) :: rest, p, c =>
    if q = p then (p, c) :: rest else (q, d) :: setA rest p c

/-! ## Filesystem model -/

/-- The filesystem: a set of directory paths and a path → content map for
regular files. -/
structure FS where
  dirs : List String
  files : List (String × String)
deriving Repr, DecidableEq

/-- Reading a file: `open(p)` succeeds iff the path is present. -/
def fsRead (fs : FS) (p : String) : Option String :=
  getA fs.files p

/-- Writing a file: `open(p, 'w'); write(c)` creates or truncates. -/
def fsWrite (fs : FS) (p c : String) : FS :=
  { fs with files := setA fs.files p c }

/-- `os.mkdir p`: fails (OSError) unless the parent directory exists and
nothing is already at `p`. -/
def mkdirF (fs : FS) (p : String) : Option FS :=
  if (parentDir p = "" ∨ parentDir p ∈ fs.dirs) ∧ p ∉ fs.dirs ∧
      getA fs.files p = none then
    some { fs with dirs := fs.dirs ++ [p] }
  else none

/-- The name under `folder` a path denotes, if it is a direct child. -/
def childName (folder p : String) : Option String :=
  match dropPre? (folder.data ++ ['/']) p.data with
  | none => none
  | some rest => if '/' ∈ rest ∨ rest = [] then none else some ⟨rest⟩

/-- `os.listdir folder`: names of the files and directories directly
inside `folder`. -/
def listdir (fs : FS) (folder : String) : List String :=
  (fs.files.map Prod.fst).filterMap (childName folder) ++
    fs.dirs.filterMap (childName folder)

/-! ## Data model -/

/-- A Locus: one extracted target sequence (from `liblast`, spec §3). -/
structure Locus where
  id : String
  sequence : String
deriving Repr, DecidableEq

/-- The in-memory gene record (`liblast.Sequence` plus the fields set by
`main`): filepath, database, derived gene name, result-file path, search
mode and extracted loci. -/
structure Candidate where
  filepath : String
  database : String
  gene_name : String
  blast_output : String
  blast_type : String
  loci : List Locus
deriving Repr, DecidableEq

/-- The argument dictionary built in `main` for the external call:
`{query, db, out, outfmt: 5}`. -/
structure BlastCall where
  query : String
  db : String
  out : String
  outfmt : Nat
deriving Repr, DecidableEq

/-- Modelled from the spec: the behavior of the missing collaborators —
`liblast.blast` (the external tool: given the search mode and the argument
set, either fails or produces the content left at `out`), the XML parsing
of `liblast.Sequence.parse_blast` (content of the result file → loci, or a
parse failure), and the GenBank→FASTA text conversion used by `prepare`. -/
structure Env where
  tool : String → BlastCall → Except String String
  parse : String → Except String (List Locus)
  conv : String → String

/-! ## `prepare`: candidate normalization -/

/-- One iteration of the loop in `prepare` (blaster.py lines 41-57): for a
`.gb` file, read it (`SeqIO.read`, IOError propagates), then create the
`.fasta` sibling only when opening it for reading fails; `.fa` files are
skipped; anything else logs a `File type not supported` debug message.
Returns the new filesystem and the debug diagnostics. -/
def prepareOne (conv : String → String) (folder : String) (fs : FS)
    (g : String) : Except String (FS × List String) :=
  let fp := folder ++ "/" ++ g
  if endswith g ".gb" then
    match fsRead fs fp with
    | none => .error ("IOError: " ++ fp)
    | some content =>
      let target := stemDot fp ++ ".fasta"
      match fsRead fs target with
      | some _ => .ok (fs, [])
      | none => .ok (fsWrite fs target (conv content), [])
  else if endswith g ".fa" then .ok (fs, [])
  else .ok (fs, ["File type not supported: " ++ g])

/-- `prepare(candidates, candidates_folder)`: fold `prepareOne` over the
listed names, threading the filesystem and collecting diagnostics. -/
def prepare (conv : String → String) (folder : String) :
    FS → List String → Except String (FS × List String)
  | fs, [] => .ok (fs, [])
  | fs, g :: gs =>
    match prepareOne conv folder fs g with
    | .error e => .error e
    | .ok (fs1, d) =>
      match prepare conv folder fs1 gs with
      | .error e => .error e
      | .ok (fs2, ds) => .ok (fs2, d ++ ds)

/-! ## The main loop -/

/-- The expected result path `<results>/<gene_name>.xml` (line 166). -/
def resultPath (rf g : String) : String :=
  rf ++ "/" ++ geneNameOf g ++ ".xml"

/-- State threaded through the main loop: the filesystem, the `genes`
dictionary and the external calls performed so far. -/
structure LoopState where
  fs : FS
  genes : List (String × Candidate)
  calls : List BlastCall
deriving Repr, DecidableEq

/-- Lines 169-181 ("Only BLAST if needed"): skip the external call iff
`open(candidate.blast_output)` succeeds, else run the tool, which leaves
its output at `out`; the performed calls are recorded. -/
def blastStep (env : Env) (bt db fp out : String) (fs : FS)
    (calls : List BlastCall) : Except String (FS × List BlastCall) :=
  match fsRead fs out with
  | some _ => .ok (fs, calls)
  | none =>
    match env.tool bt ⟨fp, db, out, 5⟩ with
    | .error e => .error e
    | .ok content => .ok (fsWrite fs out content, calls ++ [⟨fp, db, out, 5⟩])

/-- Lines 183-185: `candidate.parse_blast()` reads the result file and
extracts the loci. -/
def parseStep (env : Env) (fs : FS) (out : String) :
    Except String (List Locus) :=
  match fsRead fs out with
  | none => .error ("ResultParseError: " ++ out)
  | some content => env.parse content

/-- One iteration of the main loop (lines 157-188): build the candidate,
run `blastStep` then `parseStep`, and store the record in the `genes`
dictionary.  Any failure of the tool or the parser propagates as
`.error`. -/
def processGene (env : Env) (bt db folder rf : String) (st : LoopState)
    (g : String) : Except String LoopState :=
  let fp := folder ++ "/" ++ g
  let out := resultPath rf g
  match blastStep env bt db fp out st.fs st.calls with
  | .error e => .error e
  | .ok (fs1, calls1) =>
    match parseStep env fs1 out with
    | .error e => .error e
    | .ok loci =>
      .ok ⟨fs1,
        setA st.genes (geneNameOf g) ⟨fp, db, geneNameOf g, out, bt, loci⟩,
        calls1⟩

/-- The whole `for genefile in candidates` loop; an error aborts it. -/
def runLoop (env : Env) (bt db folder rf : String) :
    LoopState → List String → Except String LoopState
  | st, [] => .ok st
  | st, g :: gs =>
    match processGene env bt db folder rf st g with
    | .error e => .error e
    | .ok st1 => runLoop env bt db folder rf st1 gs

/-! ## The orchestrator -/

/-- The enumerated search modes (line 73). -/
def blast_types : List String :=
  ["blastn", "blastp", "blastx", "tblastn", "tblastx"]

/-- How a run of `main` ends: a `sys.exit(code)`, an uncaught Python
exception (interpreter aborts with a traceback), or normal completion. -/
inductive Outcome where
  | exited (code : Nat)
  | crashed (msg : String)
  | completed
deriving Repr, DecidableEq

/-- Observable trace of one run of `main`: how it ended, the directories
created, the external calls made, the final `genes` dictionary and the
`(path, content)` pairs written to `final_results`. -/
structure Trace where
  outcome : Outcome
  mkdirs : List String
  calls : List BlastCall
  genes : List (String × Candidate)
  finalFiles : List (String × String)
  fs : FS
deriving Repr, DecidableEq

/-- The files written by the final loop (lines 193-198): one file
`final_results/<name>.fa` per record of the `genes` dictionary, holding
`>id\n` then `sequence\n\n` for each locus. -/
def renderLoci : List Locus → String
  | [] => ""
  | l :: ls => ">" ++ l.id ++ "\n" ++ l.sequence ++ "\n\n" ++ renderLoci ls

/-- Step 3 of the orchestrator: the per-gene output files. -/
def writeFinals (genes : List (String × Candidate)) : List (String × String) :=
  genes.map (fun nc => ("final_results/" ++ nc.1 ++ ".fa", renderLoci nc.2.loci))

/-- `main(argv)` after argument parsing (blaster.py lines 117-200):
mode check, results-folder creation, candidate listing, `prepare`,
extension filter, the main loop, and the final writes.  `blast_type` is
`none` when `-b` was not given. -/
def mainRun (env : Env) (blast_type : Option String)
    (candidates_folder database : String) (fs : FS) : Trace :=
  match blast_type with
  | none => ⟨.exited 2, [], [], [], [], fs⟩
  | some bt =>
    if bt ∈ blast_types then
      match (if candidates_folder ++ "/results" ∈ fs.dirs
             then some (fs, ([] : List String))
             else (mkdirF fs (candidates_folder ++ "/results")).map
               (fun fs1 => (fs1, [candidates_folder ++ "/results"]))) with
      | none => ⟨.crashed "OSError: mkdir", [], [], [], [], fs⟩
      | some (fs1, mk1) =>
        match (if "final_results" ∈ fs1.dirs then some (fs1, mk1)
               else (mkdirF fs1 "final_results").map
                 (fun fs2 => (fs2, mk1 ++ ["final_results"]))) with
        | none => ⟨.crashed "OSError: mkdir", mk1, [], [], [], fs1⟩
        | some (fs2, mk2) =>
          if candidates_folder ∈ fs2.dirs then
            match prepare env.conv candidates_folder fs2
                (listdir fs2 candidates_folder) with
            | .error e => ⟨.crashed e, mk2, [], [], [], fs2⟩
            | .ok (fs3, _) =>
              match runLoop env bt database candidates_folder
                  (candidates_folder ++ "/results") ⟨fs3, [], []⟩
                  ((listdir fs3 candidates_folder).filter
                    (fun f => endswith f ".fa")) with
              | .error e => ⟨.crashed e, mk2, [], [], [], fs3⟩
              | .ok stEnd =>
                ⟨.completed, mk2, stEnd.calls, stEnd.genes,
                  writeFinals stEnd.genes,
                  (writeFinals stEnd.genes).foldl
                    (fun a pc => fsWrite a pc.1 pc.2) stEnd.fs⟩
          else ⟨.exited 2, mk2, [], [], [], fs2⟩
    else ⟨.exited 2, [], [], [], [], fs⟩

/-! ## Reading back the final files (plain-sequence format) -/

/-- Character-list form of `renderLoci`. -/
def renderC : List Locus → List Char
  | [] => []
  | l :: ls =>
    '>' :: (l.id.data ++ '\n' :: (l.sequence.data ++ '\n' :: '\n' :: renderC ls))

/-- Close the record currently being accumulated, if any. -/
def flushRec : Option (List Char × List Char) → List (String × String)
  | none => []
  | some (i, s) => [(⟨i⟩, ⟨s⟩)]

/-- Read records off a list of lines: a `>` line opens a record whose id is
the rest of the line, blank lines are skipped, and other lines extend the
current record's sequence body. -/
def parseRecs : List (List Char) → Option (List Char × List Char) →
    List (String × String)
  | [], cur => flushRec cur
  | [] :: rest, cur => parseRecs rest cur
  | (c :: tl) :: rest, cur =>
    if c = '>' then flushRec cur ++ parseRecs rest (some (tl, []))
    else
      match cur with
      | none => parseRecs rest none
      | some (i, s) => parseRecs rest (some (i, s ++ (c :: tl)))

/-- Re-reading a plain-sequence file: split into lines and collect the
records. -/
def parseFasta (content : String) : List (String × String) :=
  parseRecs (splitSep '\n' content.data) none

/-- A locus is renderable without ambiguity when neither field embeds a
newline and the sequence does not open with the header marker. -/
def goodLocus (l : Locus) : Bool :=
  decide ('\n' ∉ l.id.data) && decide ('\n' ∉ l.sequence.data) &&
    decide (l.sequence.data.head? ≠ some '>')

/-- All loci of a gene are renderable. -/
def goodLoci (loci : List Locus) : Bool :=
  loci.all goodLocus

/-! ## Basic lemmas -/

theorem splitSep_ne_nil (sep : Char) (cs : List Char) : splitSep sep cs ≠ [] := by
  cases cs with
  | nil => simp [splitSep]
  | cons c cs =>
    simp only [splitSep]
    cases h : splitSep sep cs with
    | nil => simp
    | cons r rs =>
      by_cases hc : c = sep <;> simp [hc]

theorem splitSep_cons_sep (sep : Char) (ys : List Char) :
    splitSep sep (sep :: ys) = [] :: splitSep sep ys := by
  simp only [splitSep]
  cases h : splitSep sep ys with
  | nil => exact absurd h (splitSep_ne_nil sep ys)
  | cons r rs => simp

theorem splitSep_append (sep : Char) (xs ys : List Char) (h : sep ∉ xs) :
    splitSep sep (xs ++ sep :: ys) = xs :: splitSep sep ys := by
  induction xs with
  | nil => simpa using splitSep_cons_sep sep ys
  | cons x xs ih =>
    have hx : x ≠ sep := fun he => h (he ▸ List.mem_cons_self x xs)
    have hxs : sep ∉ xs := fun hm => h (List.mem_cons_of_mem x hm)
    simp only [List.cons_append, splitSep, List.append_eq, ih hxs, if_neg hx]

theorem splitSep_no_sep (sep : Char) (xs : List Char) (h : sep ∉ xs) :
    splitSep sep xs = [xs] := by
  induction xs with
  | nil => rfl
  | cons x xs ih =>
    have hx : x ≠ sep := fun he => h (he ▸ List.mem_cons_self x xs)
    have hxs : sep ∉ xs := fun hm => h (List.mem_cons_of_mem x hm)
    simp only [splitSep, ih hxs, if_neg hx]

theorem dropPre?_eq_some {pre xs r : List Char} :
    dropPre? pre xs = some r ↔ xs = pre ++ r := by
  induction pre generalizing xs with
  | nil => simp [dropPre?, eq_comm]
  | cons p ps ih =>
    cases xs with
    | nil => simp [dropPre?]
    | cons c cs =>
      simp only [dropPre?]
      by_cases hpc : p = c
      · subst hpc
        simp [ih]
      · rw [if_neg hpc]
        simp only [List.cons_append]
        constructor
        · intro h
          exact Option.noConfusion h
        · intro h
          injection h with h1 h2
          exact absurd h1.symm hpc

theorem endswith_iff {s post : String} :
    endswith s post = true ↔ ∃ t, s.data = t ++ post.data := by
  constructor
  · intro h
    obtain ⟨r, hr⟩ := Option.isSome_iff_exists.mp h
    have := dropPre?_eq_some.mp hr
    refine ⟨r.reverse, ?_⟩
    have := congrArg List.reverse this
    simpa [List.reverse_append] using this
  · rintro ⟨t, ht⟩
    have : s.data.reverse = post.data.reverse ++ t.reverse := by
      simp [ht, List.reverse_append]
    simp [endswith, Option.isSome_iff_exists, dropPre?_eq_some, this]

theorem endswith_append_left (x s post : String)
    (h : endswith s post = true) : endswith (x ++ s) post = true := by
  rw [endswith_iff] at h ⊢
  obtain ⟨t, ht⟩ := h
  exact ⟨x.data ++ t, by simp [ht]⟩

theorem endswith_fasta_not_fa (s : String) :
    endswith (s ++ ".fasta") ".fa" = false := by
  rw [Bool.eq_false_iff]
  intro h
  rw [endswith_iff] at h
  obtain ⟨t, ht⟩ := h
  have ht' := congrArg List.reverse ht
  simp [List.reverse_append] at ht'

/-! ## Association-list lemmas -/

theorem getA_setA_same {β : Type} (l : List (String × β)) (k : String) (v : β) :
    getA (setA l k v) k = some v := by
  induction l with
  | nil => simp [setA, getA]
  | cons p rest ih =>
    obtain ⟨q, d⟩ := p
    by_cases hq : q = k
    · simp [setA, hq, getA]
    · simp [setA, hq, getA, ih]

theorem getA_setA_ne {β : Type} (l : List (String × β)) (k k' : String) (v : β)
    (h : k ≠ k') : getA (setA l k v) k' = getA l k' := by
  induction l with
  | nil => simp [setA, getA, h]
  | cons p rest ih =>
    obtain ⟨q, d⟩ := p
    by_cases hq : q = k
    · subst hq
      simp [setA, getA, h, ih]
    · simp [setA, hq, getA, ih]

theorem setA_keys {β : Type} (l : List (String × β)) (k : String) (v : β) :
    (setA l k v).map Prod.fst =
      if k ∈ l.map Prod.fst then l.map Prod.fst else l.map Prod.fst ++ [k] := by
  induction l with
  | nil => simp [setA]
  | cons p rest ih =>
    obtain ⟨q, d⟩ := p
    by_cases hq : q = k
    · subst hq
      simp [setA]
    · have : ¬ k = q := fun h => hq h.symm
      by_cases hm : k ∈ rest.map Prod.fst <;>
        simp [setA, hq, ih, hm, this]

theorem setA_keys_nodup {β : Type} (l : List (String × β)) (k : String) (v : β)
    (h : (l.map Prod.fst).Nodup) : ((setA l k v).map Prod.fst).Nodup := by
  rw [setA_keys]
  by_cases hm : k ∈ l.map Prod.fst
  · simpa [hm] using h
  · simp only [hm, if_false]
    simpa [List.nodup_append, hm] using h

theorem fsRead_fsWrite_same (fs : FS) (p c : String) :
    fsRead (fsWrite fs p c) p = some c :=
  getA_setA_same fs.files p c

theorem fsRead_fsWrite_ne (fs : FS) (p q c : String) (h : p ≠ q) :
    fsRead (fsWrite fs p c) q = fsRead fs q :=
  getA_setA_ne fs.files p q c h

/-! ## Round-trip of the final files -/

theorem renderLoci_data (ls : List Locus) : (renderLoci ls).data = renderC ls := by
  induction ls with
  | nil => rfl
  | cons l ls ih =>
    show (">" ++ l.id ++ "\n" ++ l.sequence ++ "\n\n" ++ renderLoci ls).data = _
    simp only [String.data_append, ih]
    simp [renderC]

theorem parseRecs_render (ls : List Locus) (h : goodLoci ls = true) :
    ∀ cur, parseRecs (splitSep '\n' (renderC ls)) cur =
      flushRec cur ++ ls.map (fun l => (l.id, l.sequence)) := by
  induction ls with
  | nil =>
    intro cur
    simp [renderC, splitSep, parseRecs]
  | cons l ls ih =>
    intro cur
    have hboth := h
    rw [goodLoci, List.all_cons, Bool.and_eq_true] at hboth
    have hl := hboth.1
    have hls : goodLoci ls = true := hboth.2
    rw [goodLocus, Bool.and_eq_true, Bool.and_eq_true] at hl
    have hid : '\n' ∉ l.id.data := of_decide_eq_true hl.1.1
    have hseq : '\n' ∉ l.sequence.data := of_decide_eq_true hl.1.2
    have hgt : l.sequence.data.head? ≠ some '>' := of_decide_eq_true hl.2
    have hsplit : splitSep '\n' (renderC (l :: ls)) =
        ('>' :: l.id.data) :: l.sequence.data :: [] :: splitSep '\n' (renderC ls) := by
      have e1 : renderC (l :: ls) =
          ('>' :: l.id.data) ++ '\n' ::
            (l.sequence.data ++ '\n' :: ('\n' :: renderC ls)) := by
        simp [renderC]
      rw [e1]
      rw [splitSep_append '\n' ('>' :: l.id.data) _ (by simp [hid])]
      rw [splitSep_append '\n' l.sequence.data _ hseq]
      rw [splitSep_cons_sep]
    have hbody : parseRecs (l.sequence.data :: [] :: splitSep '\n' (renderC ls))
        (some (l.id.data, [])) =
        (l.id, l.sequence) :: ls.map (fun l => (l.id, l.sequence)) := by
      cases hsd : l.sequence.data with
      | nil =>
        have e2 : (⟨[]⟩ : String) = l.sequence := String.ext (by simp [hsd])
        simp only [parseRecs]
        rw [ih hls]
        simp only [flushRec]
        rw [e2]
        rfl
      | cons c tl =>
        have hc : ¬ c = '>' := by
          rw [hsd] at hgt
          simpa using hgt
        have e2 : (⟨[] ++ c :: tl⟩ : String) = l.sequence :=
          String.ext (by simp [hsd])
        simp only [parseRecs, if_neg hc]
        rw [ih hls]
        simp only [flushRec]
        rw [e2]
        rfl
    rw [hsplit]
    simp only [parseRecs]
    rw [if_pos trivial, hbody]
    rfl

theorem parseFasta_renderLoci (ls : List Locus) (h : goodLoci ls = true) :
    parseFasta (renderLoci ls) = ls.map (fun l => (l.id, l.sequence)) := by
  show parseRecs (splitSep '\n' (renderLoci ls).data) none = _
  rw [renderLoci_data, parseRecs_render ls h none]
  rfl

/-! ## Main-loop lemmas -/

theorem blastStep_ok_spec {env : Env} {bt db fp out : String} {fs : FS}
    {calls : List BlastCall} {fs1 : FS} {calls1 : List BlastCall}
    (h : blastStep env bt db fp out fs calls = .ok (fs1, calls1)) :
    (fs1 = fs ∧ calls1 = calls ∧ ∃ c, fsRead fs out = some c) ∨
    (∃ content, fsRead fs out = none ∧
      env.tool bt ⟨fp, db, out, 5⟩ = .ok content ∧
      fs1 = fsWrite fs out content ∧
      calls1 = calls ++ [⟨fp, db, out, 5⟩]) := by
  unfold blastStep at h
  cases hr : fsRead fs out with
  | some c =>
    left
    simp only [hr, Except.ok.injEq, Prod.mk.injEq] at h
    exact ⟨h.1.symm, h.2.symm, c, rfl⟩
  | none =>
    right
    simp only [hr] at h
    cases ht : env.tool bt ⟨fp, db, out, 5⟩ with
    | error e => simp [ht] at h
    | ok content =>
      simp only [ht, Except.ok.injEq, Prod.mk.injEq] at h
      exact ⟨content, rfl, rfl, h.1.symm, h.2.symm⟩

theorem processGene_ok {env : Env} {bt db folder rf g : String}
    {st st' : LoopState}
    (h : processGene env bt db folder rf st g = .ok st') :
    (∃ loci, st'.genes = setA st.genes (geneNameOf g)
      ⟨folder ++ "/" ++ g, db, geneNameOf g, resultPath rf g, bt, loci⟩) ∧
    (st'.calls = st.calls ∨
      st'.calls = st.calls ++ [⟨folder ++ "/" ++ g, db, resultPath rf g, 5⟩]) := by
  simp only [processGene] at h
  split at h
  · exact absurd h (by simp)
  · rename_i fs1 calls1 heq
    split at h
    · exact absurd h (by simp)
    · rename_i loci heq2
      simp only [Except.ok.injEq] at h
      subst h
      refine ⟨⟨loci, rfl⟩, ?_⟩
      rcases blastStep_ok_spec heq with ⟨_, hc, _⟩ | ⟨content, _, _, _, hc⟩
      · exact Or.inl hc
      · exact Or.inr hc

theorem runLoop_calls {env : Env} {bt db folder rf : String} :
    ∀ (cands : List String) (st st' : LoopState),
      runLoop env bt db folder rf st cands = .ok st' →
      ∀ c ∈ st'.calls,
        c ∈ st.calls ∨ ∃ g ∈ cands, c.query = folder ++ "/" ++ g := by
  intro cands
  induction cands with
  | nil =>
    intro st st' h c hc
    simp only [runLoop, Except.ok.injEq] at h
    subst h
    exact Or.inl hc
  | cons g gs ih =>
    intro st st' h c hc
    rw [runLoop] at h
    cases hp : processGene env bt db folder rf st g with
    | error e => rw [hp] at h; exact absurd h (by simp)
    | ok st1 =>
      rw [hp] at h
      have hmem := ih st1 st' h c hc
      obtain ⟨_, hcalls⟩ := processGene_ok hp
      rcases hmem with hin | ⟨g', hg', hq⟩
      · rcases hcalls with he | he
        · rw [he] at hin
          exact Or.inl hin
        · rw [he] at hin
          rcases List.mem_append.mp hin with h1 | h2
          · exact Or.inl h1
          · right
            refine ⟨g, List.mem_cons_self _ _, ?_⟩
            simp only [List.mem_singleton] at h2
            rw [h2]
      · exact Or.inr ⟨g', List.mem_cons_of_mem _ hg', hq⟩

theorem runLoop_nodup {env : Env} {bt db folder rf : String} :
    ∀ (cands : List String) (st st' : LoopState),
      runLoop env bt db folder rf st cands = .ok st' →
      (st.genes.map Prod.fst).Nodup → (st'.genes.map Prod.fst).Nodup := by
  intro cands
  induction cands with
  | nil =>
    intro st st' h hn
    simp only [runLoop, Except.ok.injEq] at h
    subst h
    exact hn
  | cons g gs ih =>
    intro st st' h hn
    rw [runLoop] at h
    cases hp : processGene env bt db folder rf st g with
    | error e => rw [hp] at h; exact absurd h (by simp)
    | ok st1 =>
      rw [hp] at h
      obtain ⟨⟨loci, hg⟩, _⟩ := processGene_ok hp
      exact ih st1 st' h (by rw [hg]; exact setA_keys_nodup _ _ _ hn)

theorem runLoop_lookup_frozen {env : Env} {bt db folder rf : String}
    {name : String} :
    ∀ (cands : List String) (st st' : LoopState),
      runLoop env bt db folder rf st cands = .ok st' →
      (∀ g ∈ cands, geneNameOf g ≠ name) →
      getA st'.genes name = getA st.genes name := by
  intro cands
  induction cands with
  | nil =>
    intro st st' h _
    simp only [runLoop, Except.ok.injEq] at h
    subst h
    rfl
  | cons g gs ih =>
    intro st st' h hne
    rw [runLoop] at h
    cases hp : processGene env bt db folder rf st g with
    | error e => rw [hp] at h; exact absurd h (by simp)
    | ok st1 =>
      rw [hp] at h
      obtain ⟨⟨loci, hg⟩, _⟩ := processGene_ok hp
      have h1 := ih st1 st' h (fun x hx => hne x (List.mem_cons_of_mem _ hx))
      rw [h1, hg, getA_setA_ne _ _ _ _ (hne g (List.mem_cons_self _ _))]

theorem runLoop_lookup_last {env : Env} {bt db folder rf : String}
    {name : String} :
    ∀ (cands : List String) (st st' : LoopState),
      runLoop env bt db folder rf st cands = .ok st' →
      (∃ g ∈ cands, geneNameOf g = name) →
      ∃ glast cand,
        (cands.filter (fun x => geneNameOf x = name)).getLast? = some glast ∧
        getA st'.genes name = some cand ∧
        cand.filepath = folder ++ "/" ++ glast ∧ cand.gene_name = name := by
  intro cands
  induction cands with
  | nil =>
    intro st st' _ hex
    simp at hex
  | cons g gs ih =>
    intro st st' h hex
    rw [runLoop] at h
    cases hp : processGene env bt db folder rf st g with
    | error e => rw [hp] at h; exact absurd h (by simp)
    | ok st1 =>
      rw [hp] at h
      by_cases hgs : ∃ g' ∈ gs, geneNameOf g' = name
      · obtain ⟨glast, cand, hfil, hget, hfp, hgn⟩ := ih st1 st' h hgs
        refine ⟨glast, cand, ?_, hget, hfp, hgn⟩
        have hne : gs.filter (fun x => geneNameOf x = name) ≠ [] := by
          obtain ⟨g', hg', he⟩ := hgs
          intro hnil
          have := List.filter_eq_nil_iff.mp hnil g' hg'
          simp [he] at this
        cases hfgs : gs.filter (fun x => geneNameOf x = name) with
        | nil => exact absurd hfgs hne
        | cons a l =>
          rw [hfgs] at hfil
          by_cases hgname : geneNameOf g = name
          · rw [List.filter_cons_of_pos (by simpa using hgname), hfgs,
              List.getLast?_cons_cons]
            exact hfil
          · rw [List.filter_cons_of_neg (by simpa using hgname), hfgs]
            exact hfil
      · have hgname : geneNameOf g = name := by
          obtain ⟨g', hg', he⟩ := hex
          rcases List.mem_cons.mp hg' with rfl | hmem
          · exact he
          · exact absurd ⟨g', hmem, he⟩ hgs
        obtain ⟨⟨loci, hg1⟩, _⟩ := processGene_ok hp
        have hfroz := runLoop_lookup_frozen gs st1 st' h
          (fun x hx hn => hgs ⟨x, hx, hn⟩)
        refine ⟨g, ⟨folder ++ "/" ++ g, db, geneNameOf g, resultPath rf g,
          bt, loci⟩, ?_, ?_, rfl, hgname⟩
        · have hfnil : gs.filter (fun x => geneNameOf x = name) = [] :=
            List.filter_eq_nil_iff.mpr (fun a ha => by
              simp only [decide_eq_true_eq]
              exact fun hn => hgs ⟨a, ha, hn⟩)
          rw [List.filter_cons_of_pos (by simpa using hgname), hfnil]
          rfl
        · rw [hfroz, hg1, hgname, getA_setA_same]

/-! ## Orchestrator-level lemmas -/

theorem mainRun_shape (env : Env) (bt : Option String) (folder db : String)
    (fs : FS) :
    (mainRun env bt folder db fs).finalFiles =
      writeFinals (mainRun env bt folder db fs).genes ∧
    ((mainRun env bt folder db fs).outcome ≠ .completed →
      (mainRun env bt folder db fs).genes = [] ∧
      (mainRun env bt folder db fs).calls = []) := by
  unfold mainRun
  repeat (any_goals split)
  all_goals simp [writeFinals]

theorem mainRun_calls_fa (env : Env) (bt : Option String) (folder db : String)
    (fs : FS) :
    ∀ c ∈ (mainRun env bt folder db fs).calls,
      endswith c.query ".fa" = true := by
  intro c hc
  simp only [mainRun] at hc
  repeat (any_goals split at hc)
  all_goals simp at hc
  rename_i stEnd heq
  rcases runLoop_calls _ _ _ heq c hc with h0 | ⟨g, hg, hq⟩
  · exact absurd h0 (by simp)
  · have hfa : endswith g ".fa" = true := by
      have := List.mem_filter.mp hg
      simpa using this.2
    rw [hq]
    exact endswith_append_left _ _ _ hfa

theorem blastStep_hit {env : Env} {bt db fp out : String} {fs : FS}
    {calls : List BlastCall} {c : String} (hr : fsRead fs out = some c) :
    blastStep env bt db fp out fs calls = .ok (fs, calls) := by
  simp [blastStep, hr]

theorem processGene_ok_iff {env : Env} {bt db folder rf g : String}
    {st st' : LoopState} :
    processGene env bt db folder rf st g = .ok st' ↔
    ∃ fs1 calls1 loci,
      blastStep env bt db (folder ++ "/" ++ g) (resultPath rf g)
        st.fs st.calls = .ok (fs1, calls1) ∧
      parseStep env fs1 (resultPath rf g) = .ok loci ∧
      st' = ⟨fs1, setA st.genes (geneNameOf g)
        ⟨folder ++ "/" ++ g, db, geneNameOf g, resultPath rf g, bt, loci⟩,
        calls1⟩ := by
  constructor
  · intro h
    simp only [processGene] at h
    split at h
    · exact absurd h (by simp)
    · rename_i fs1 calls1 heq
      split at h
      · exact absurd h (by simp)
      · rename_i loci heq2
        simp only [Except.ok.injEq] at h
        exact ⟨fs1, calls1, loci, heq, heq2, h.symm⟩
  · rintro ⟨fs1, calls1, loci, h1, h2, rfl⟩
    simp [processGene, h1, h2]

theorem runLoop_error_propagates {env : Env} {bt db folder rf : String}
    (pre : List String) (g : String) (post : List String)
    (st st1 : LoopState) (e : String)
    (h1 : runLoop env bt db folder rf st pre = .ok st1)
    (h2 : processGene env bt db folder rf st1 g = .error e) :
    runLoop env bt db folder rf st (pre ++ g :: post) = .error e := by
  induction pre generalizing st with
  | nil =>
    simp only [runLoop, Except.ok.injEq] at h1
    subst h1
    simp [runLoop, h2]
  | cons a pre ih =>
    rw [List.cons_append, runLoop]
    rw [runLoop] at h1
    cases hp : processGene env bt db folder rf st a with
    | error e' => rw [hp] at h1; exact absurd h1 (by simp)
    | ok stA =>
      rw [hp] at h1
      exact ih stA h1

/-- A path ending in `.gb` is never the `.fasta` conversion target. -/
theorem fasta_target_ne_gb {fp : String} (h : endswith fp ".gb" = true) :
    stemDot fp ++ ".fasta" ≠ fp := by
  intro he
  obtain ⟨t, ht⟩ := endswith_iff.mp h
  have h1 : fp.data.getLast? = some 'b' := by
    rw [ht]
    rw [List.getLast?_append_of_ne_nil t (by simp : (".gb".data) ≠ [])]
    rfl
  have h2 : (stemDot fp ++ ".fasta").data.getLast? = some 'a' := by
    rw [String.data_append]
    rw [List.getLast?_append_of_ne_nil _ (by simp : (".fasta".data) ≠ [])]
    rfl
  rw [he, h1] at h2
  simp at h2

/-! ## Concrete fixtures used by the witnesses -/

/-- A concrete environment: the tool always succeeds writing `"xmlout"`,
parsing always yields one locus, conversion copies the text. -/
def envW : Env :=
  ⟨fun _ _ => .ok "xmlout", fun _ => .ok [⟨"h1", "ACGT"⟩], id⟩

/-- A loop state with one plain-sequence candidate and no cached result. -/
def stW : LoopState :=
  ⟨⟨["candidates"], [("candidates/geneA.fa", "FA")]⟩, [], []⟩

/-- The loop state after processing `geneA.fa` from `stW`. -/
def stW1 : LoopState :=
  ⟨⟨["candidates"],
    [("candidates/geneA.fa", "FA"),
     ("candidates/results/geneA.xml", "xmlout")]⟩,
   [("geneA", ⟨"candidates/geneA.fa", "db", "geneA",
     "candidates/results/geneA.xml", "blastn", [⟨"h1", "ACGT"⟩]⟩)],
   [⟨"candidates/geneA.fa", "db", "candidates/results/geneA.xml", 5⟩]⟩

/-- A filesystem with one plain-sequence candidate. -/
def fsW : FS := ⟨["candidates"], [("candidates/geneA.fa", "FA")]⟩

/-- A filesystem with one annotation-format candidate. -/
def fsGB : FS := ⟨["candidates"], [("candidates/gene.gb", "GB")]⟩

/-- The empty filesystem: no candidates folder. -/
def fsEmpty : FS := ⟨[], []⟩

/-- An environment whose external tool always fails. -/
def envFail : Env :=
  ⟨fun _ _ => .error "ExternalToolError", fun _ => .ok [], id⟩

/-- A loop state with two candidate files normalizing to one gene name. -/
def stW7 : LoopState :=
  ⟨⟨["candidates"],
    [("candidates/dup.x.fa", "A"), ("candidates/dup.x.gb", "B")]⟩, [], []⟩

/-- The loop state reached from `stW7` over `[dup.x.fa, dup.x.gb]`. -/
def st7end : LoopState :=
  ⟨⟨["candidates"],
    [("candidates/dup.x.fa", "A"), ("candidates/dup.x.gb", "B"),
     ("candidates/results/dup.x.xml", "xmlout")]⟩,
   [("dup.x", ⟨"candidates/dup.x.gb", "db", "dup.x",
     "candidates/results/dup.x.xml", "blastn", [⟨"h1", "ACGT"⟩]⟩)],
   [⟨"candidates/dup.x.fa", "db", "candidates/results/dup.x.xml", 5⟩]⟩

/-! ## The claims -/

/-- C1: in the batch loop, if a file exists at the expected result path
`<results>/<gene_name>.xml` and can be opened, the external tool is
invoked zero times for that candidate; otherwise it is invoked exactly
once, with arguments `{query: candidate filepath, db: database,
out: result filepath, outfmt: 5}`; and running the loop body again after
a first run that produced the output file adds no further call, so two
runs perform the external call exactly once in total. -/
theorem claim_C1 (env : Env) (bt db folder rf : String) (st : LoopState)
    (g : String) :
    (∀ c st', fsRead st.fs (resultPath rf g) = some c →
      processGene env bt db folder rf st g = .ok st' →
      st'.calls = st.calls) ∧
    (∀ st', fsRead st.fs (resultPath rf g) = none →
      processGene env bt db folder rf st g = .ok st' →
      st'.calls = st.calls ++
        [⟨folder ++ "/" ++ g, db, resultPath rf g, 5⟩] ∧
      ∀ st'', processGene env bt db folder rf st' g = .ok st'' →
        st''.calls = st'.calls) := by
  constructor
  · intro c st' hr hok
    obtain ⟨fs1, calls1, loci, h1, h2, rfl⟩ := processGene_ok_iff.mp hok
    have heq := h1.symm.trans (blastStep_hit hr)
    simp only [Except.ok.injEq, Prod.mk.injEq] at heq
    exact heq.2
  · intro st' hr hok
    obtain ⟨fs1, calls1, loci, h1, h2, rfl⟩ := processGene_ok_iff.mp hok
    rcases blastStep_ok_spec h1 with ⟨_, _, c, hc⟩ | ⟨content, _, _, hfs1, hcalls1⟩
    · rw [hr] at hc
      exact absurd hc (by simp)
    · subst hfs1
      subst hcalls1
      refine ⟨rfl, ?_⟩
      intro st'' hok2
      obtain ⟨fs2, calls2, loci2, g1, g2, rfl⟩ := processGene_ok_iff.mp hok2
      rcases blastStep_ok_spec g1 with ⟨_, hcalls2, _⟩ | ⟨content2, hnone, _, _, _⟩
      · exact hcalls2
      · simp [fsRead_fsWrite_same] at hnone

/-- Witness for C1 at a concrete input: no cached result file, one call
with the exact argument set. -/
theorem claim_C1_witness :
    fsRead stW.fs (resultPath "candidates/results" "geneA.fa") = none ∧
    stW1.calls = stW.calls ++
      [⟨"candidates/geneA.fa", "db", "candidates/results/geneA.xml", 5⟩] :=
  ⟨rfl, ((claim_C1 envW "blastn" "db" "candidates" "candidates/results" stW
    "geneA.fa").2 stW1 rfl rfl).1⟩

/-- C2: for every Gene Record of the batch mapping, the orchestrator's
final loop writes exactly one file `final_results/<gene_name>.fa` whose
content lists each owned locus as a `>id` header line and a sequence body
line with a blank line after each record, and (for loci whose fields are
newline-free and whose sequence does not begin with the header marker)
re-reading that file yields exactly the in-memory `(id, sequence)`
pairs. -/
theorem claim_C2 (env : Env) (bt : Option String) (folder db : String)
    (fs : FS) (n : String) (c : Candidate)
    (hmem : (n, c) ∈ (mainRun env bt folder db fs).genes) :
    ("final_results/" ++ n ++ ".fa", renderLoci c.loci) ∈
      (mainRun env bt folder db fs).finalFiles ∧
    (mainRun env bt folder db fs).finalFiles.length =
      (mainRun env bt folder db fs).genes.length ∧
    (goodLoci c.loci = true →
      parseFasta (renderLoci c.loci) =
        c.loci.map (fun l => (l.id, l.sequence))) := by
  have hshape := (mainRun_shape env bt folder db fs).1
  refine ⟨?_, ?_, fun h => parseFasta_renderLoci c.loci h⟩
  · rw [hshape, writeFinals]
    exact List.mem_map_of_mem _ hmem
  · rw [hshape]
    simp [writeFinals]

/-- Witness for C2: the single-gene scenario round-trips. -/
theorem claim_C2_witness :
    ("final_results/" ++ "geneA" ++ ".fa",
      renderLoci [⟨"h1", "ACGT"⟩]) ∈
      (mainRun envW (some "blastn") "candidates" "db" fsW).finalFiles ∧
    parseFasta (renderLoci [⟨"h1", "ACGT"⟩]) =
      ([⟨"h1", "ACGT"⟩] : List Locus).map (fun l => (l.id, l.sequence)) := by
  have h := claim_C2 envW (some "blastn") "candidates" "db" fsW "geneA"
    ⟨"candidates/geneA.fa", "db", "geneA", "candidates/results/geneA.xml",
      "blastn", [⟨"h1", "ACGT"⟩]⟩ (by decide)
  exact ⟨h.1, h.2.2 rfl⟩

/-- C3: after normalization only files ending in `.fa` reach the search
stage (every external call's query is such a file), and a file of any
other extension is skipped by `prepare` with a `File type not supported`
diagnostic and no error. -/
theorem claim_C3 (env : Env) (bt : Option String) (folder db : String)
    (fs : FS) (conv : String → String) (fsx : FS) (g : String) :
    (∀ c ∈ (mainRun env bt folder db fs).calls,
      endswith c.query ".fa" = true) ∧
    (endswith g ".gb" = false → endswith g ".fa" = false →
      prepareOne conv folder fsx g =
        .ok (fsx, ["File type not supported: " ++ g])) := by
  refine ⟨mainRun_calls_fa env bt folder db fs, ?_⟩
  intro h1 h2
  simp [prepareOne, h1, h2]

/-- Witness for C3: a `.txt` file is skipped with the diagnostic and no
error. -/
theorem claim_C3_witness :
    prepareOne id "candidates" fsEmpty "notes.txt" =
      .ok (fsEmpty, ["File type not supported: " ++ "notes.txt"]) :=
  (claim_C3 envW (some "blastn") "candidates" "db" fsW id fsEmpty
    "notes.txt").2 rfl rfl

/-- C4: for a `.gb` candidate, the normalizer creates the `.fasta` sibling
only when it does not already exist, never overwrites it, and a second
normalization of the same file is a no-op that raises no error and leaves
the first run's content readable and unchanged. -/
theorem claim_C4 (conv : String → String) (folder g content : String)
    (fs : FS) (hgb : endswith g ".gb" = true)
    (hread : fsRead fs (folder ++ "/" ++ g) = some content) :
    (∀ c, fsRead fs (stemDot (folder ++ "/" ++ g) ++ ".fasta") = some c →
      prepareOne conv folder fs g = .ok (fs, [])) ∧
    (fsRead fs (stemDot (folder ++ "/" ++ g) ++ ".fasta") = none →
      prepareOne conv folder fs g =
        .ok (fsWrite fs (stemDot (folder ++ "/" ++ g) ++ ".fasta")
          (conv content), []) ∧
      prepareOne conv folder
        (fsWrite fs (stemDot (folder ++ "/" ++ g) ++ ".fasta")
          (conv content)) g =
        .ok (fsWrite fs (stemDot (folder ++ "/" ++ g) ++ ".fasta")
          (conv content), []) ∧
      fsRead (fsWrite fs (stemDot (folder ++ "/" ++ g) ++ ".fasta")
          (conv content))
        (stemDot (folder ++ "/" ++ g) ++ ".fasta") = some (conv content)) := by
  constructor
  · intro c hfa
    simp [prepareOne, hgb, hread, hfa]
  · intro hnone
    have hne : stemDot (folder ++ "/" ++ g) ++ ".fasta" ≠ folder ++ "/" ++ g :=
      fasta_target_ne_gb (endswith_append_left _ _ _ hgb)
    have hread2 : fsRead (fsWrite fs (stemDot (folder ++ "/" ++ g) ++ ".fasta")
        (conv content)) (folder ++ "/" ++ g) = some content := by
      rw [fsRead_fsWrite_ne _ _ _ _ hne]
      exact hread
    refine ⟨by simp [prepareOne, hgb, hread, hnone], ?_,
      fsRead_fsWrite_same _ _ _⟩
    simp [prepareOne, hgb, hread2, fsRead_fsWrite_same]

/-- Witness for C4: converting `gene.gb` once writes `gene.fasta`; a
second run is a no-op on the same filesystem. -/
theorem claim_C4_witness :
    prepareOne id "candidates" fsGB "gene.gb" =
      .ok (fsWrite fsGB (stemDot ("candidates" ++ "/" ++ "gene.gb") ++
        ".fasta") (id "GB"), []) ∧
    prepareOne id "candidates"
      (fsWrite fsGB (stemDot ("candidates" ++ "/" ++ "gene.gb") ++
        ".fasta") (id "GB")) "gene.gb" =
      .ok (fsWrite fsGB (stemDot ("candidates" ++ "/" ++ "gene.gb") ++
        ".fasta") (id "GB"), []) := by
  have h := (claim_C4 id "candidates" "gene.gb" "GB" fsGB rfl rfl).2 rfl
  exact ⟨h.1, h.2.1⟩

/-- C5: the claim says a missing candidates folder is reported with a
critical log and exit code 2; on the code, `os.mkdir(candidates_folder +
'/results')` runs first and raises an uncaught OSError (the interpreter
aborts with a traceback, not `sys.exit(2)`), so the `exit 2` handler at
the `os.listdir` call is never reached in this scenario.  The theorem
evaluates the model at the failing input. -/
theorem claim_C5 :
    (mainRun envW (some "blastn") "candidates" "db" fsEmpty).outcome =
      .crashed "OSError: mkdir" ∧
    ∀ n : Nat, (mainRun envW (some "blastn") "candidates" "db"
      fsEmpty).outcome ≠ .exited n := by
  refine ⟨rfl, fun n h => ?_⟩
  rw [show (mainRun envW (some "blastn") "candidates" "db"
    fsEmpty).outcome = Outcome.crashed "OSError: mkdir" from rfl] at h
  exact Outcome.noConfusion h

/-- C6: with the search mode missing or outside the enumerated set, the
program exits with code 2 having created no folder, performed no external
call, and written no final file. -/
theorem claim_C6 (env : Env) (folder db : String) (fs : FS)
    (bt : Option String)
    (h : bt = none ∨ ∃ b, bt = some b ∧ b ∉ blast_types) :
    mainRun env bt folder db fs = ⟨.exited 2, [], [], [], [], fs⟩ := by
  rcases h with rfl | ⟨b, rfl, hb⟩
  · rfl
  · simp [mainRun, hb]

/-- Witness for C6: the unsupported mode `blastq`. -/
theorem claim_C6_witness :
    mainRun envW (some "blastq") "candidates" "db" fsW =
      ⟨.exited 2, [], [], [], [], fsW⟩ :=
  claim_C6 envW "candidates" "db" fsW (some "blastq")
    (Or.inr ⟨"blastq", rfl, by decide⟩)

/-- C7: the `genes` dictionary keys stay duplicate-free through the main
loop, and when several processed files normalize to the same gene name
the mapping holds exactly one record under that name, the one built from
the last such file. -/
theorem claim_C7 (env : Env) (bt db folder rf name : String)
    (cands : List String) (st st' : LoopState)
    (h : runLoop env bt db folder rf st cands = .ok st')
    (hnodup : (st.genes.map Prod.fst).Nodup) :
    (st'.genes.map Prod.fst).Nodup ∧
    ((∃ g ∈ cands, geneNameOf g = name) →
      ∃ glast cand,
        (cands.filter (fun x => geneNameOf x = name)).getLast? =
          some glast ∧
        getA st'.genes name = some cand ∧
        cand.filepath = folder ++ "/" ++ glast ∧
        cand.gene_name = name) :=
  ⟨runLoop_nodup cands st st' h hnodup,
   fun hex => runLoop_lookup_last cands st st' h hex⟩

/-- Witness for C7: `dup.x.fa` then `dup.x.gb` collapse to one record,
the later one. -/
theorem claim_C7_witness :
    (st7end.genes.map Prod.fst).Nodup ∧
    ∃ glast cand,
      ((["dup.x.fa", "dup.x.gb"].filter
        (fun x => geneNameOf x = "dup.x")).getLast? = some glast) ∧
      getA st7end.genes "dup.x" = some cand ∧
      cand.filepath = "candidates" ++ "/" ++ glast ∧
      cand.gene_name = "dup.x" := by
  have h := claim_C7 envW "blastn" "db" "candidates" "candidates/results"
    "dup.x" ["dup.x.fa", "dup.x.gb"] stW7 st7end rfl (by decide)
  exact ⟨h.1, h.2 ⟨"dup.x.fa", by decide, by decide⟩⟩

/-- C8: an error from the search invocation or the result parsing inside
the main loop propagates uncaught: the whole remaining batch is skipped
(the loop's result does not depend on the later candidates), and a
crashed run writes no final file and is not retried. -/
theorem claim_C8 :
    (∀ (env : Env) (bt db folder rf : String) (pre : List String)
      (g : String) (post : List String) (st st1 : LoopState) (e : String),
      runLoop env bt db folder rf st pre = .ok st1 →
      processGene env bt db folder rf st1 g = .error e →
      runLoop env bt db folder rf st (pre ++ g :: post) = .error e) ∧
    (∀ (env : Env) (bt : Option String) (folder db : String) (fs : FS)
      (msg : String),
      (mainRun env bt folder db fs).outcome = .crashed msg →
      (mainRun env bt folder db fs).finalFiles = [] ∧
      (mainRun env bt folder db fs).genes = []) := by
  constructor
  · intro env bt db folder rf pre g post st st1 e h1 h2
    exact runLoop_error_propagates pre g post st st1 e h1 h2
  · intro env bt folder db fs msg h
    have hs := mainRun_shape env bt folder db fs
    have hnc : (mainRun env bt folder db fs).outcome ≠ .completed := by
      rw [h]
      exact fun hc => Outcome.noConfusion hc
    have h2 := hs.2 hnc
    exact ⟨by rw [hs.1, h2.1]; rfl, h2.1⟩

/-- Witness for C8: a failing tool aborts the batch before the second
candidate and the crashed run writes nothing. -/
theorem claim_C8_witness :
    runLoop envFail "blastn" "db" "candidates" "candidates/results" stW
      ([] ++ "geneA.fa" :: ["geneB.fa"]) = .error "ExternalToolError" ∧
    (mainRun envFail (some "blastn") "candidates" "db" fsW).finalFiles =
      [] :=
  ⟨claim_C8.1 envFail "blastn" "db" "candidates" "candidates/results" []
    "geneA.fa" ["geneB.fa"] stW stW "ExternalToolError" rfl rfl,
   (claim_C8.2 envFail (some "blastn") "candidates" "db" fsW
    "ExternalToolError" rfl).1⟩

/-- C9: the conversion target of a `.gb` input ends in `.fasta`, which
never satisfies the `endswith('.fa')` filter, so a candidate supplied only
in annotation format is converted but never searched: on a folder holding
only `gene.gb`, the run completes with zero external calls and zero final
files. -/
theorem claim_C9 :
    (∀ s : String, endswith (s ++ ".fasta") ".fa" = false) ∧
    (∀ (conv : String → String) (folder g content : String) (fs : FS),
      endswith g ".gb" = true →
      fsRead fs (folder ++ "/" ++ g) = some content →
      fsRead fs (stemDot (folder ++ "/" ++ g) ++ ".fasta") = none →
      prepareOne conv folder fs g =
        .ok (fsWrite fs (stemDot (folder ++ "/" ++ g) ++ ".fasta")
          (conv content), [])) ∧
    ((mainRun envW (some "blastn") "candidates" "db" fsGB).calls = [] ∧
     (mainRun envW (some "blastn") "candidates" "db" fsGB).finalFiles =
       [] ∧
     (mainRun envW (some "blastn") "candidates" "db" fsGB).outcome =
       .completed) := by
  refine ⟨endswith_fasta_not_fa, ?_, rfl, rfl, rfl⟩
  intro conv folder g content fs h1 h2 h3
  simp [prepareOne, h1, h2, h3]

/-- Witness for C9: the `.gb`-only candidate is converted (second
conjunct's hypotheses hold at `gene.gb`). -/
theorem claim_C9_witness :
    prepareOne id "candidates" fsGB "gene.gb" =
      .ok (fsWrite fsGB (stemDot ("candidates" ++ "/" ++ "gene.gb") ++
        ".fasta") (id "GB"), []) :=
  claim_C9.2.1 id "candidates" "gene.gb" "GB" fsGB rfl rfl rfl

/-- A dot-free character prefix survives `split('.')[0]`. -/
theorem stemDot_append_dot (s t : String) (hs : '.' ∉ s.data) :
    stemDot (s ++ "." ++ t) = s := by
  have hd : (s ++ "." ++ t).data = s.data ++ '.' :: t.data := by
    simp [String.data_append]
  rw [stemDot, hd, splitSep_append '.' s.data t.data hs]
  rfl

/-- C10: the normalizer's conversion target is the substring of the input
filepath before its first dot plus `.fasta`; a multi-dot filename is
truncated at the first dot, and two inputs sharing the pre-first-dot
prefix convert to the same output path. -/
theorem claim_C10 :
    (∀ (conv : String → String) (folder g content : String) (fs : FS),
      endswith g ".gb" = true →
      fsRead fs (folder ++ "/" ++ g) = some content →
      fsRead fs (stemDot (folder ++ "/" ++ g) ++ ".fasta") = none →
      prepareOne conv folder fs g =
        .ok (fsWrite fs (stemDot (folder ++ "/" ++ g) ++ ".fasta")
          (conv content), [])) ∧
    (∀ s t : String, '.' ∉ s.data → stemDot (s ++ "." ++ t) = s) ∧
    (stemDot "candidates/gene.v2.gb" = "candidates/gene") ∧
    (∀ s t u : String, '.' ∉ s.data →
      stemDot (s ++ "." ++ t) ++ ".fasta" =
        stemDot (s ++ "." ++ u) ++ ".fasta") := by
  refine ⟨?_, stemDot_append_dot, by decide, fun s t u hs => ?_⟩
  · intro conv folder g content fs h1 h2 h3
    simp [prepareOne, h1, h2, h3]
  · rw [stemDot_append_dot s t hs, stemDot_append_dot s u hs]

/-- Witness for C10: `gene.v2.gb` and `gene.other.gb` share the conversion
target. -/
theorem claim_C10_witness :
    stemDot ("candidates/gene" ++ "." ++ "v2.gb") = "candidates/gene" ∧
    stemDot ("candidates/gene" ++ "." ++ "v2.gb") ++ ".fasta" =
      stemDot ("candidates/gene" ++ "." ++ "other.gb") ++ ".fasta" :=
  ⟨claim_C10.2.1 "candidates/gene" "v2.gb" (by decide),
   claim_C10.2.2.2 "candidates/gene" "v2.gb" "other.gb" (by decide)⟩

end Blaster
